import Mathlib

/-!
Verification of the wsclip server core (src/packages/wsclip/main_win.rs).

Shallow embedding conventions:
* Byte buffers are modelled as List Nat; the contents of a Rust String are
  modelled by their UTF-8 byte sequence, so pushing a decoded str segment
  appends its bytes and pushing a newline appends the byte 10.
* Code that can panic returns Option; none models a Rust panic.
* The decoding loop of set_clipboard_bytes_internal is not structurally
  recursive on its byte slice, so it takes an explicit fuel argument with
  one unit of fuel per loop iteration.  Every iteration consumes at least
  one input byte, hence fuel bytes.length + 1 always suffices;
  decodeLoopF_fuel proves the result is independent of the fuel once the
  fuel exceeds the length of the remaining input.
-/

set_option autoImplicit false

namespace Wsclip

/-- Continuation byte test for UTF-8 validation: 0x80 ..= 0xBF. -/
def isUtf8Cont (b : Nat) : Bool := 0x80 ≤ b && b ≤ 0xBF

/-- Validity of a byte list as UTF-8, as checked by str::from_utf8 in the
Rust standard library (two-byte leads 0xC2..=0xDF, 0xE0 with a restricted
second byte, 0xED excluding surrogates, 0xF0/0xF4 with restricted second
bytes). -/
def isValidUtf8 : List Nat → Bool
  | [] => true
  | b :: rest =>
    if b ≤ 0x7F then isValidUtf8 rest
    else if 0xC2 ≤ b && b ≤ 0xDF then
      match rest with
      | c1 :: rest2 => isUtf8Cont c1 && isValidUtf8 rest2
      | [] => false
    else if b == 0xE0 then
      match rest with
      | c1 :: c2 :: rest2 => (0xA0 ≤ c1 && c1 ≤ 0xBF) && isUtf8Cont c2 && isValidUtf8 rest2
      | _ => false
    else if (0xE1 ≤ b && b ≤ 0xEC) || b == 0xEE || b == 0xEF then
      match rest with
      | c1 :: c2 :: rest2 => isUtf8Cont c1 && isUtf8Cont c2 && isValidUtf8 rest2
      | _ => false
    else if b == 0xED then
      match rest with
      | c1 :: c2 :: rest2 => (0x80 ≤ c1 && c1 ≤ 0x9F) && isUtf8Cont c2 && isValidUtf8 rest2
      | _ => false
    else if b == 0xF0 then
      match rest with
      | c1 :: c2 :: c3 :: rest2 =>
        (0x90 ≤ c1 && c1 ≤ 0xBF) && isUtf8Cont c2 && isUtf8Cont c3 && isValidUtf8 rest2
      | _ => false
    else if 0xF1 ≤ b && b ≤ 0xF3 then
      match rest with
      | c1 :: c2 :: c3 :: rest2 =>
        isUtf8Cont c1 && isUtf8Cont c2 && isUtf8Cont c3 && isValidUtf8 rest2
      | _ => false
    else if b == 0xF4 then
      match rest with
      | c1 :: c2 :: c3 :: rest2 =>
        (0x80 ≤ c1 && c1 ≤ 0x8F) && isUtf8Cont c2 && isUtf8Cont c3 && isValidUtf8 rest2
      | _ => false
    else false

/-- Model of "bytes.iter().position(|x| *x == 0)" combined with the two
slicings the loop performs with the found index: returns the bytes before
the first NUL together with the bytes after it, or none when the buffer
contains no NUL. -/
def splitAtFirstNul : List Nat → Option (List Nat × List Nat)
  | [] => none
  | b :: rest =>
    if b == 0 then some ([], rest)
    else
      match splitAtFirstNul rest with
      | some (seg, rest2) => some (b :: seg, rest2)
      | none => none

/-- One-to-one translation of the loop of set_clipboard_bytes_internal
(main_win.rs lines 177-212), with acc modelling utf8_content.

* empty buffer: break, yielding the accumulated content;
* first byte is NUL (null_i == 0): the code pushes a newline and advances
  the slice by one, then falls through and reuses the stale index 0: it
  decodes the empty slice bytes[..0] (always Ok, pushing a second newline)
  and advances again with bytes = bytes[0 + 1 ..].  The second advance
  panics when the remainder after the NUL is empty (modelled by none) and
  otherwise discards the byte that follows the NUL;
* NUL at a positive index: the segment before the NUL is pushed followed
  by a newline when it is valid UTF-8, and is only logged otherwise; the
  loop continues after the NUL;
* no NUL: the final segment is pushed with no trailing newline when valid
  (only logged otherwise) and the loop breaks. -/
def decodeLoopF : Nat → List Nat → List Nat → Option (List Nat)
  | 0, _, _ => none
  | _ + 1, [], acc => some acc
  | fuel + 1, b :: rest, acc =>
    match splitAtFirstNul (b :: rest) with
    | some ([], rest1) =>
      match rest1 with
      | [] => none
      | _ :: rest2 => decodeLoopF fuel rest2 (acc ++ [10, 10])
    | some (seg, rest1) =>
      decodeLoopF fuel rest1 (if isValidUtf8 seg then acc ++ seg ++ [10] else acc)
    | none => some (if isValidUtf8 (b :: rest) then acc ++ (b :: rest) else acc)

/-- The decoding performed by set_clipboard_bytes_internal on a payload:
some content when the loop completes with utf8_content = content, none
when the loop panics.  Fuel bytes.length + 1 is always sufficient. -/
def decode (bytes : List Nat) : Option (List Nat) :=
  decodeLoopF (bytes.length + 1) bytes []

/-- The clipboard sink invocations made by set_clipboard_bytes_internal
for one payload: when the decoding loop completes, line 214 always calls
clipboard_win::set_clipboard exactly once with the decoded content. -/
def clipboardInvocations (bytes : List Nat) : List (List Nat) :=
  match decode bytes with
  | some content => [content]
  | none => []

/-- Join a list of segments with a separator; joinWith [0] segs is the
payload whose NUL-separated segments are segs, and joinWith [10] segs is
the newline join of segs with the final segment unterminated. -/
def joinWith (sep : List Nat) : List (List Nat) → List Nat
  | [] => []
  | [s] => s
  | s :: rest => s ++ sep ++ joinWith sep rest

/-- What the decoding loop accumulates for a segment list in which every
non-final segment is nonempty: a valid non-final segment contributes
itself plus a newline, a valid final segment contributes itself, and an
invalid segment contributes nothing at all (not even its newline). -/
def decodeSegs : List (List Nat) → List Nat
  | [] => []
  | [s] => if isValidUtf8 s then s else []
  | s :: rest => (if isValidUtf8 s then s ++ [10] else []) ++ decodeSegs rest

/-- The outcome of one non-blocking conn.ws.read() in the Multiplexer
loop (main_win.rs lines 108-142): a text payload, a binary payload, any
other successful protocol message (ping/pong and the like), WouldBlock,
ConnectionClosed or AlreadyClosed, a reset-family io error
(ConnectionReset, ConnectionRefused, ConnectionAborted), or any other
read error. -/
inductive ReadResult where
  | text (bytes : List Nat)
  | binary (bytes : List Nat)
  | otherMsg
  | wouldBlock
  | connClosed
  | connReset
  | otherErr
deriving DecidableEq

/-- A connection as seen by the Multiplexer in one tick: its id together
with the read outcome its socket reports this tick. -/
structure MConn where
  id : Nat
  result : ReadResult
deriving DecidableEq

/-- Log lines emitted by the Multiplexer and the clipboard path, tagged
with the connection id they report on. -/
inductive LogEvent where
  | copied (id : Nat)
  | sinkError (id : Nat)
  | received (id : Nat)
  | idleLog (id : Nat)
  | readError (id : Nat)
  | closedLog (id : Nat)
deriving DecidableEq

/-- set_clipboard_bytes (main_win.rs lines 168-172) together with the
tail of set_clipboard_bytes_internal (lines 213-221): decode the payload,
then invoke the clipboard sink with the decoded content; sinkOk is the
outcome of the external clipboard_win::set_clipboard call.  On sink
success an info line is logged, on sink failure the cu::bail error is
caught by set_clipboard_bytes and logged with the connection id.  none
models the panic inside the decoding loop. -/
def set_clipboard_bytes (sinkOk : Bool) (id : Nat) (bytes : List Nat) : Option (List LogEvent) :=
  match decode bytes with
  | none => none
  | some _ => if sinkOk then some [LogEvent.copied id] else some [LogEvent.sinkError id]

/-- The read outcomes that set worked = true in the loop (all Ok
messages: text, binary, and other protocol messages). -/
def hasActivity : ReadResult → Bool
  | ReadResult.text _ => true
  | ReadResult.binary _ => true
  | ReadResult.otherMsg => true
  | _ => false

/-- The read outcomes that assign closed_index = i (ConnectionClosed,
AlreadyClosed, and the reset-family io errors). -/
def isRetiring : ReadResult → Bool
  | ReadResult.connClosed => true
  | ReadResult.connReset => true
  | _ => false

/-- Effect of polling one connection in the loop body: the log events it
produces; none models a panic escaping from set_clipboard_bytes. -/
def pollConn (sinkOk : Nat → Bool) (c : MConn) : Option (List LogEvent) :=
  match c.result with
  | ReadResult.text bytes => set_clipboard_bytes (sinkOk c.id) c.id bytes
  | ReadResult.binary bytes => set_clipboard_bytes (sinkOk c.id) c.id bytes
  | ReadResult.otherMsg => some [LogEvent.received c.id]
  | ReadResult.wouldBlock => some [LogEvent.idleLog c.id]
  | ReadResult.connClosed => some []
  | ReadResult.connReset => some []
  | ReadResult.otherErr => some [LogEvent.readError c.id]

/-- Polling every connection of the set in order, concatenating their log
events; a panic while handling one connection aborts the whole loop. -/
def pollAll (sinkOk : Nat → Bool) : List MConn → Option (List LogEvent)
  | [] => some []
  | c :: rest =>
    match pollConn sinkOk c with
    | none => none
    | some logs =>
      match pollAll sinkOk rest with
      | none => none
      | some ls => some (logs ++ ls)

/-- Final value of closed_index after the polling loop: the variable is
initialised to connections.len() and overwritten by every retiring
connection in order, so it ends as the index of the last connection whose
read reported closed or reset (none when no connection did). -/
def closedIndexOf : List MConn → Option Nat
  | [] => none
  | c :: rest =>
    match closedIndexOf rest with
    | some i => some (i + 1)
    | none => if isRetiring c.result then some 0 else none

/-- Vec::swap_remove(i): the element at i is removed and replaced by the
last element (when i is the last index, the vector just shrinks).  Rust
panics when i is out of bounds or when the vector is empty; the loop only
calls it with a valid index, so that case is modelled by the identity. -/
def swapRemove {α : Type} (l : List α) (i : Nat) : List α :=
  match l.getLast? with
  | none => l
  | some x => if i + 1 = l.length then l.dropLast else l.dropLast.set i x

/-- The removal step after the polling loop (main_win.rs lines 144-150):
when closed_index moved, swap_remove that single index. -/
def retireStep (conns : List MConn) : List MConn :=
  match closedIndexOf conns with
  | some i => swapRemove conns i
  | none => conns

/-- The retirement log of lines 146-149: the closed message is printed
for the removed connection only while the server is still running. -/
def retireLogs (running : Bool) (conns : List MConn) : List LogEvent :=
  match closedIndexOf conns with
  | some i =>
    if running then
      match conns[i]? with
      | some c => [LogEvent.closedLog c.id]
      | none => []
    else []
  | none => []

/-- State owned by the Multiplexer loop between ticks: the connection
vector and the current idle backoff duration in milliseconds. -/
structure MuxState where
  conns : List MConn
  idle_ms : Nat
deriving DecidableEq

/-- The connection set polled in a tick: the previous set plus at most
one connection drained from the handoff channel (lines 91-94). -/
def tickConns (s : MuxState) (handoff : Option MConn) : List MConn :=
  s.conns ++ handoff.toList

/-- worked flag of a tick: whether any connection had an Ok read. -/
def tickWorked (conns : List MConn) : Bool :=
  conns.any fun c => hasActivity c.result

/-- Idle backoff update of lines 154-160: an idle tick sleeps the stored
duration and then increases it by the 50 ms linear step capped at the
2000 ms ceiling; a tick with activity resets the duration to 50 ms. -/
def nextIdle (worked : Bool) (idle_ms : Nat) : Nat :=
  if !worked then min 2000 (idle_ms + 50) else 50

/-- Stored idle duration after n consecutive idle ticks, starting from
the 50 ms floor the loop initialises idle_ms with (line 88). -/
def idleAfter : Nat → Nat
  | 0 => 50
  | n + 1 => nextIdle false (idleAfter n)

/-- Everything one tick of the Multiplexer produces. -/
structure TickOutput where
  conns : List MConn
  idle_ms : Nat
  worked : Bool
  slept : Option Nat
  exited : Bool
  logs : List LogEvent
deriving DecidableEq

/-- One tick of the Multiplexer loop (main_win.rs lines 90-161): drain at
most one handed-off connection, poll every connection in order (when the
shutdown flag is down a close frame is also sent first, which produces no
modelled state change), remove the single connection closed_index points
at, exit once the set is empty and the flag is down, otherwise sleep and
update the idle backoff.  none models a panic escaping the loop. -/
def multiplexerTick (running : Bool) (handoff : Option MConn) (sinkOk : Nat → Bool)
    (s : MuxState) : Option TickOutput :=
  match pollAll sinkOk (tickConns s handoff) with
  | none => none
  | some pollLogs =>
    let conns := tickConns s handoff
    let conns2 := retireStep conns
    let worked := tickWorked conns
    let exited := conns2.isEmpty && !running
    some {
      conns := conns2
      idle_ms := if exited then s.idle_ms else nextIdle worked s.idle_ms
      worked := worked
      slept := if exited || worked then none else some s.idle_ms
      exited := exited
      logs := pollLogs ++ retireLogs running conns }

/-- One iteration of the Acceptor thread loop (main_win.rs lines 60-83):
the raw accept may fail, the websocket handshake may fail, or both
succeed.  The Bool paired with each event is the value running.load would
return at that iteration; the source reads the flag only after a
successful accept, handshake and handoff. -/
inductive AcceptEvent where
  | acceptErr
  | handshakeErr
  | ok
deriving DecidableEq

/-- The Acceptor loop run over a scripted list of accept outcomes,
returning the ids handed off to the Multiplexer in order.  Failed
accepts and failed handshakes continue with the next iteration without
reading the flag; a successful accept hands off the current id,
increments it, then returns when the flag reads false. -/
def acceptorRun : Nat → List (AcceptEvent × Bool) → List Nat
  | _, [] => []
  | id, (AcceptEvent.acceptErr, _) :: rest => acceptorRun id rest
  | id, (AcceptEvent.handshakeErr, _) :: rest => acceptorRun id rest
  | id, (AcceptEvent.ok, running) :: rest =>
    id :: (if running then acceptorRun (id + 1) rest else [])

/-- State read and written by the Ctrl-C handler: the CAS guard
attempted and the Shared Shutdown Flag running. -/
structure HandlerState where
  attempted : Bool
  running : Bool
deriving DecidableEq

/-- Externally visible actions of one Ctrl-C handler invocation. -/
inductive HandlerAction where
  | warnGraceful
  | storeRunningFalse
  | connectLoopback
  | warnForce
  | exitProcess (code : Nat)
deriving DecidableEq

/-- The Ctrl-C handler closure (main_win.rs lines 35-52): the first
invocation wins the compare-exchange on attempted, warns, stores
running = false and opens the loopback websocket connection to unblock
the Acceptor; every later invocation warns and exits the process with
status 19937. -/
def ctrlcHandler (s : HandlerState) : HandlerState × List HandlerAction :=
  if s.attempted = false then
    ({ attempted := true, running := false },
      [HandlerAction.warnGraceful, HandlerAction.storeRunningFalse,
        HandlerAction.connectLoopback])
  else
    (s, [HandlerAction.warnForce, HandlerAction.exitProcess 19937])

theorem splitAtFirstNul_length :
    ∀ (bytes seg rest : List Nat), splitAtFirstNul bytes = some (seg, rest) →
      seg.length + 1 + rest.length = bytes.length := by
  intro bytes
  induction bytes with
  | nil => intro seg rest h; simp [splitAtFirstNul] at h
  | cons b t ih =>
    intro seg rest h
    rw [splitAtFirstNul] at h
    by_cases hb : b == 0
    · rw [if_pos hb] at h
      obtain ⟨h1, h2⟩ := Prod.mk.injEq .. ▸ Option.some.inj h
      subst h1; subst h2
      simp only [List.length_nil, List.length_cons]
      omega
    · rw [if_neg hb] at h
      cases hs : splitAtFirstNul t with
      | none => rw [hs] at h; exact absurd h (by simp)
      | some pr =>
        obtain ⟨s2, r2⟩ := pr
        rw [hs] at h
        obtain ⟨h1, h2⟩ := Prod.mk.injEq .. ▸ Option.some.inj h
        subst h1; subst h2
        have := ih s2 r2 hs
        simp only [List.length_cons]
        omega

theorem splitAtFirstNul_of_no_nul :
    ∀ (l : List Nat), (∀ a ∈ l, a ≠ 0) → splitAtFirstNul l = none := by
  intro l
  induction l with
  | nil => intro _; rfl
  | cons b t ih =>
    intro h
    have hb : (b == 0) = false := by
      simp only [beq_eq_false_iff_ne]
      exact h b (by simp)
    rw [splitAtFirstNul, if_neg (by simp [hb]), ih (fun a ha => h a (by simp [ha]))]

theorem splitAtFirstNul_append :
    ∀ (seg l : List Nat), (∀ a ∈ seg, a ≠ 0) →
      splitAtFirstNul (seg ++ 0 :: l) = some (seg, l) := by
  intro seg
  induction seg with
  | nil => intro l _; simp [splitAtFirstNul]
  | cons b t ih =>
    intro l h
    have hb : (b == 0) = false := by
      simp only [beq_eq_false_iff_ne]
      exact h b (by simp)
    rw [List.cons_append, splitAtFirstNul, if_neg (by simp [hb]),
      ih l (fun a ha => h a (by simp [ha]))]

/-- The decoding loop is insensitive to the exact fuel value as long as the
fuel exceeds the number of remaining bytes (each iteration consumes at
least one byte). -/
theorem decodeLoopF_fuel :
    ∀ (f1 f2 : Nat) (bytes acc : List Nat), bytes.length < f1 → bytes.length < f2 →
      decodeLoopF f1 bytes acc = decodeLoopF f2 bytes acc := by
  intro f1
  induction f1 with
  | zero => intro f2 bytes acc h1 _; exact absurd h1 (Nat.not_lt_zero _)
  | succ a ih =>
    intro f2 bytes acc h1 h2
    cases f2 with
    | zero => exact absurd h2 (Nat.not_lt_zero _)
    | succ b =>
      cases bytes with
      | nil => rfl
      | cons x t =>
        cases hs : splitAtFirstNul (x :: t) with
        | none => simp only [decodeLoopF]; rw [hs]
        | some pr =>
          obtain ⟨seg, rest1⟩ := pr
          have hlen := splitAtFirstNul_length _ _ _ hs
          simp only [List.length_cons] at hlen h1 h2
          cases seg with
          | nil =>
            cases rest1 with
            | nil => simp only [decodeLoopF]; rw [hs]
            | cons c rest2 =>
              simp only [decodeLoopF]; rw [hs]
              show decodeLoopF a rest2 (acc ++ [10, 10]) = decodeLoopF b rest2 (acc ++ [10, 10])
              simp only [List.length_nil, List.length_cons] at hlen
              exact ih b rest2 _ (by omega) (by omega)
          | cons s0 s1 =>
            simp only [decodeLoopF]; rw [hs]
            show decodeLoopF a rest1 _ = decodeLoopF b rest1 _
            simp only [List.length_cons] at hlen
            exact ih b rest1 _ (by omega) (by omega)

/-- Accumulator lemma: the loop only ever appends to utf8_content, so
running it with initial content acc yields acc prepended to the result of
running it with empty content. -/
theorem decodeLoopF_acc :
    ∀ (fuel : Nat) (bytes acc : List Nat),
      decodeLoopF fuel bytes acc = (decodeLoopF fuel bytes []).map (fun s => acc ++ s) := by
  intro fuel
  induction fuel with
  | zero => intro bytes acc; rfl
  | succ a ih =>
    intro bytes acc
    cases bytes with
    | nil => simp [decodeLoopF]
    | cons x t =>
      cases hs : splitAtFirstNul (x :: t) with
      | none =>
        simp only [decodeLoopF]; rw [hs]
        by_cases hv : isValidUtf8 (x :: t) <;> simp [hv]
      | some pr =>
        obtain ⟨seg, rest1⟩ := pr
        cases seg with
        | nil =>
          cases rest1 with
          | nil => simp only [decodeLoopF]; rw [hs]; rfl
          | cons c rest2 =>
            simp only [decodeLoopF]; rw [hs]
            show decodeLoopF a rest2 (acc ++ [10, 10])
                = (decodeLoopF a rest2 ([] ++ [10, 10])).map fun s => acc ++ s
            rw [ih rest2 (acc ++ [10, 10]), ih rest2 ([] ++ [10, 10])]
            cases decodeLoopF a rest2 [] with
            | none => rfl
            | some v => simp
        | cons s0 s1 =>
          simp only [decodeLoopF]; rw [hs]
          show decodeLoopF a rest1 (if isValidUtf8 (s0 :: s1) then acc ++ (s0 :: s1) ++ [10] else acc)
              = (decodeLoopF a rest1
                  (if isValidUtf8 (s0 :: s1) then [] ++ (s0 :: s1) ++ [10] else [])).map fun s => acc ++ s
          rw [ih rest1 (if isValidUtf8 (s0 :: s1) then acc ++ (s0 :: s1) ++ [10] else acc),
            ih rest1 (if isValidUtf8 (s0 :: s1) then [] ++ (s0 :: s1) ++ [10] else [])]
          cases decodeLoopF a rest1 [] with
          | none => by_cases hv : isValidUtf8 (s0 :: s1) <;> simp [hv]
          | some v => by_cases hv : isValidUtf8 (s0 :: s1) <;> simp [hv]

/-- Behaviour of the loop on a NUL-joined segment list in which every
non-final segment is nonempty (so the stale-index branch for a NUL at
position 0 is never taken): each segment contributes decodeSegs-style. -/
theorem decodeLoopF_segs :
    ∀ (segs : List (List Nat)) (fuel : Nat) (acc : List Nat),
      (joinWith [0] segs).length < fuel →
      (∀ s ∈ segs, (0 : Nat) ∉ s) →
      (∀ s ∈ segs.dropLast, s ≠ []) →
      decodeLoopF fuel (joinWith [0] segs) acc = some (acc ++ decodeSegs segs) := by
  intro segs
  induction segs with
  | nil =>
    intro fuel acc hf _ _
    cases fuel with
    | zero => exact absurd hf (Nat.not_lt_zero _)
    | succ a => simp [joinWith, decodeLoopF, decodeSegs]
  | cons s rest ih =>
    intro fuel acc hf h0 h1
    cases rest with
    | nil =>
      cases fuel with
      | zero => exact absurd hf (Nat.not_lt_zero _)
      | succ a =>
        cases s with
        | nil => simp [joinWith, decodeLoopF, decodeSegs, show isValidUtf8 [] = true from rfl]
        | cons b t =>
          have hnn : ∀ x ∈ b :: t, x ≠ 0 := by
            intro x hx hx0
            exact (h0 (b :: t) (by simp)) (hx0 ▸ hx)
          have hsp := splitAtFirstNul_of_no_nul (b :: t) hnn
          show decodeLoopF (a + 1) (b :: t) acc = _
          simp only [decodeLoopF]; rw [hsp]
          by_cases hv : isValidUtf8 (b :: t) <;> simp [decodeSegs, hv]
    | cons s2 rest2 =>
      have hs_ne : s ≠ [] := h1 s (by simp)
      cases fuel with
      | zero => exact absurd hf (Nat.not_lt_zero _)
      | succ a =>
        cases s with
        | nil => exact absurd rfl hs_ne
        | cons b t =>
          have hJ : joinWith [0] ((b :: t) :: s2 :: rest2)
              = b :: (t ++ 0 :: joinWith [0] (s2 :: rest2)) := by
            show (b :: t) ++ [0] ++ joinWith [0] (s2 :: rest2) = _
            simp
          have hnn : ∀ x ∈ b :: t, x ≠ 0 := by
            intro x hx hx0
            exact (h0 (b :: t) (by simp)) (hx0 ▸ hx)
          have hsp : splitAtFirstNul (b :: (t ++ 0 :: joinWith [0] (s2 :: rest2)))
              = some (b :: t, joinWith [0] (s2 :: rest2)) := by
            have := splitAtFirstNul_append (b :: t) (joinWith [0] (s2 :: rest2)) hnn
            simpa using this
          rw [hJ]
          simp only [decodeLoopF]; rw [hsp]
          show decodeLoopF a (joinWith [0] (s2 :: rest2))
              (if isValidUtf8 (b :: t) then acc ++ (b :: t) ++ [10] else acc) = _
          rw [hJ] at hf
          simp only [List.length_cons, List.length_append] at hf
          rw [ih a _ (by omega)
            (fun x hx => h0 x (by simp [hx]))
            (fun x hx => h1 x (by simp_all))]
          by_cases hv : isValidUtf8 (b :: t) <;>
            simp [show decodeSegs ((b :: t) :: s2 :: rest2)
                = (if isValidUtf8 (b :: t) then (b :: t) ++ [10] else []) ++ decodeSegs (s2 :: rest2)
              from rfl, hv]

/-- Claim C1 (code bug): the spec example "abc\x00def" decodes to
"abc\ndef" as claimed, but "abc\x00\x00def" decodes to "abc\n\n\nef"
(bytes 97 98 99 10 10 10 101 102), not "abc\n\ndef": on the second,
consecutive NUL the loop pushes a newline and advances, then reuses the
stale index 0, pushing a second newline for the empty slice and skipping
the byte 100 (the letter d). -/
theorem decode_consecutive_nul_eval :
    decode [97, 98, 99, 0, 100, 101, 102] = some [97, 98, 99, 10, 100, 101, 102]
    ∧ decode [97, 98, 99, 0, 0, 100, 101, 102] = some [97, 98, 99, 10, 10, 10, 101, 102] := by
  constructor <;> decide

/-- Claim C2 (code bug): the decoding loop is not total.  On the payload
consisting of a single NUL byte (and on any payload whose remaining
suffix becomes exactly one NUL, such as "abc\x00\x00"), after consuming
the NUL the code evaluates bytes[0 + 1 ..] on an already empty slice,
which panics and aborts the Multiplexer; none models this panic. -/
theorem decode_single_nul_panics :
    decode [0] = none ∧ decode [97, 98, 99, 0, 0] = none := by
  constructor <;> decide

/-- Claim C3 counterexample: decoding the payload "\x00abc" yields
"\n\nbc" (10 10 98 99), not two newlines followed by the normal decoding
of the remaining segment "abc": the byte 97 following the leading NUL is
silently discarded, so the claim as stated is false. -/
theorem decode_leading_nul_counterexample :
    decode [0, 97, 98, 99] = some [10, 10, 98, 99]
    ∧ decode [0, 97, 98, 99] ≠ some (10 :: 10 :: decodeSegs [[97, 98, 99]]) := by
  constructor <;> decide

/-- Claim C3 as amended: a payload beginning with a NUL byte followed by
at least one more byte decodes to two newline characters followed by the
decoding of the payload with its first two bytes removed (the NUL and the
byte immediately after it are both consumed), and the payload consisting
of exactly one NUL byte makes the decoder panic. -/
theorem decode_leading_nul_amended (c : Nat) (rest : List Nat) :
    decode (0 :: c :: rest) = (decode rest).map (fun s => 10 :: 10 :: s)
    ∧ decode [0] = none := by
  refine ⟨?_, by decide⟩
  have h1 : decode (0 :: c :: rest) = decodeLoopF (rest.length + 2) rest [10, 10] := rfl
  rw [h1, decodeLoopF_fuel (rest.length + 2) (rest.length + 1) rest [10, 10]
    (by omega) (by omega), decodeLoopF_acc (rest.length + 1) rest [10, 10]]
  rfl

/-- Claim C4 counterexample: for the payload "a\x00" followed by the
invalid byte 0xFF, the decoder yields "a\n" (97 10), not the valid
segments joined with the invalid one omitted (which would be just "a"):
skipping the invalid final segment still leaves the newline pushed for
the terminated segment before it. -/
theorem decode_invalid_final_counterexample :
    decode [97, 0, 255] = some [97, 10]
    ∧ decode [97, 0, 255] ≠ some (joinWith [10] (List.filter isValidUtf8 [[97], [255]])) := by
  constructor <;> decide

/-- Claim C4 as amended: for a payload whose NUL-separated segments have
no empty non-final segment, decoding yields the concatenation in which a
valid non-final segment contributes itself plus a newline, a valid final
segment contributes itself unterminated, and an invalid-UTF-8 segment is
skipped (contributing nothing, not even a newline) without aborting the
decoding of the remaining segments. -/
theorem decode_segments (segs : List (List Nat))
    (h0 : ∀ s ∈ segs, (0 : Nat) ∉ s)
    (h1 : ∀ s ∈ segs.dropLast, s ≠ []) :
    decode (joinWith [0] segs) = some (decodeSegs segs) := by
  have h := decodeLoopF_segs segs ((joinWith [0] segs).length + 1) [] (Nat.lt_succ_self _) h0 h1
  simpa [decode] using h

/-- Witness for decode_segments: the payload "a\x00" ++ 0xFF ++ "\x00b"
has an invalid segment between two valid ones and decodes to "a\nb". -/
theorem decode_segments_witness :
    decode (joinWith [0] [[97], [255], [98]]) = some [97, 10, 98] := by
  have h := decode_segments [[97], [255], [98]] (by decide) (by decide)
  rw [h]; decide

/-- Claim C10: the empty payload decodes to the empty string, and the
clipboard sink is still invoked exactly once, with the empty text. -/
theorem empty_payload_sets_empty_clipboard :
    decode [] = some [] ∧ clipboardInvocations [] = [[]] := by
  exact ⟨rfl, rfl⟩

theorem set_perm_cons_eraseIdx {α : Type} :
    ∀ (l : List α) (i : Nat) (x : α), i < l.length →
      (l.set i x).Perm (x :: l.eraseIdx i) := by
  intro l
  induction l with
  | nil => intro i x h; exact absurd h (by simp)
  | cons a t ih =>
    intro i x h
    cases i with
    | zero => exact List.Perm.refl _
    | succ j =>
      have h2 : j < t.length := by simpa using h
      show (a :: t.set j x).Perm (x :: a :: t.eraseIdx j)
      exact ((ih j x h2).cons a).trans (List.Perm.swap x a (t.eraseIdx j))

theorem eraseIdx_append_left {α : Type} :
    ∀ (A B : List α) (i : Nat), i < A.length →
      (A ++ B).eraseIdx i = A.eraseIdx i ++ B := by
  intro A
  induction A with
  | nil => intro B i h; exact absurd h (by simp)
  | cons a t ih =>
    intro B i h
    cases i with
    | zero => rfl
    | succ j =>
      show a :: (t ++ B).eraseIdx j = (a :: t.eraseIdx j) ++ B
      rw [ih B j (by simpa using h)]
      rfl

theorem mem_eraseIdx_of_ne {α : Type} :
    ∀ (l : List α) (i : Nat) (b c : α), l[i]? = some b → c ≠ b → c ∈ l →
      c ∈ l.eraseIdx i := by
  intro l
  induction l with
  | nil => intro i b c h; simp at h
  | cons a t ih =>
    intro i b c hb hne hc
    cases i with
    | zero =>
      simp only [List.getElem?_cons_zero, Option.some.injEq] at hb
      subst hb
      rcases List.mem_cons.mp hc with h1 | h1
      · exact absurd h1 hne
      · simpa [List.eraseIdx] using h1
    | succ j =>
      simp only [List.getElem?_cons_succ] at hb
      rcases List.mem_cons.mp hc with h1 | h1
      · subst h1
        exact List.mem_cons_self _ _
      · exact List.mem_cons_of_mem _ (ih j b c hb hne h1)

/-- Vec::swap_remove at a valid index removes exactly the element at that
index, up to reordering of the survivors. -/
theorem swapRemove_perm {α : Type} (l : List α) (i : Nat) (h : i < l.length) :
    (swapRemove l i).Perm (l.eraseIdx i) := by
  cases hg : l.getLast? with
  | none =>
    rw [List.getLast?_eq_none_iff] at hg
    subst hg
    exact absurd h (by simp)
  | some x =>
    rw [swapRemove, hg]
    show (if i + 1 = l.length then l.dropLast else l.dropLast.set i x).Perm (l.eraseIdx i)
    by_cases he : i + 1 = l.length
    · rw [if_pos he, List.dropLast_eq_eraseIdx he]
    · rw [if_neg he]
      have hx : l.dropLast ++ [x] = l := List.dropLast_append_getLast? x (by simp [hg])
      have hiA : i < l.dropLast.length := by
        rw [List.length_dropLast]; omega
      have h2 : l.eraseIdx i = l.dropLast.eraseIdx i ++ [x] := by
        conv_lhs => rw [← hx]
        exact eraseIdx_append_left _ _ i hiA
      rw [h2]
      refine (set_perm_cons_eraseIdx _ i x hiA).trans ?_
      have h3 := @List.perm_middle α x (l.dropLast.eraseIdx i) []
      rw [List.append_nil] at h3
      exact h3.symm

theorem closedIndexOf_retiring :
    ∀ (l : List MConn) (i : Nat), closedIndexOf l = some i →
      ∃ c, l[i]? = some c ∧ isRetiring c.result = true := by
  intro l
  induction l with
  | nil => intro i h; simp [closedIndexOf] at h
  | cons a t ih =>
    intro i h
    rw [closedIndexOf] at h
    cases hs : closedIndexOf t with
    | some j =>
      rw [hs] at h
      obtain rfl : j + 1 = i := Option.some.inj h
      obtain ⟨c, hc1, hc2⟩ := ih j hs
      exact ⟨c, by simpa using hc1, hc2⟩
    | none =>
      rw [hs] at h
      by_cases hr : isRetiring a.result
      · rw [if_pos hr] at h
        obtain rfl : (0 : Nat) = i := Option.some.inj h
        exact ⟨a, by simp, hr⟩
      · rw [if_neg hr] at h
        exact absurd h (by simp)

theorem closedIndexOf_lt (l : List MConn) (i : Nat) (h : closedIndexOf l = some i) :
    i < l.length := by
  obtain ⟨c, hc, _⟩ := closedIndexOf_retiring l i h
  have := List.getElem?_eq_some.mp hc
  exact this.1

/-- A connection whose read outcome is not a retiring one survives the
removal step of the tick. -/
theorem mem_retireStep (conns : List MConn) (c : MConn)
    (hc : c ∈ conns) (hnr : isRetiring c.result = false) : c ∈ retireStep conns := by
  rw [retireStep]
  cases hi : closedIndexOf conns with
  | none => exact hc
  | some i =>
    obtain ⟨b, hb, hbr⟩ := closedIndexOf_retiring conns i hi
    have hlt : i < conns.length := closedIndexOf_lt conns i hi
    have hne : c ≠ b := by
      intro he
      rw [he, hbr] at hnr
      exact absurd hnr (by simp)
    exact ((swapRemove_perm conns i hlt).mem_iff).mpr
      (mem_eraseIdx_of_ne conns i b c hb hne hc)

theorem hasActivity_not_retiring (r : ReadResult) (h : hasActivity r = true) :
    isRetiring r = false := by
  cases r <;> simp_all [hasActivity, isRetiring]

theorem set_clipboard_bytes_none_iff (k1 k2 : Bool) (id1 id2 : Nat) (p : List Nat) :
    (set_clipboard_bytes k1 id1 p = none ↔ set_clipboard_bytes k2 id2 p = none) := by
  cases hd : decode p <;> cases k1 <;> cases k2 <;> simp [set_clipboard_bytes, hd]

/-- Whether polling a connection panics does not depend on the clipboard
sink outcome, only on the payload. -/
theorem pollConn_none_iff (s1 s2 : Nat → Bool) (c : MConn) :
    pollConn s1 c = none ↔ pollConn s2 c = none := by
  obtain ⟨id, r⟩ := c
  cases r with
  | text p => exact set_clipboard_bytes_none_iff _ _ _ _ _
  | binary p => exact set_clipboard_bytes_none_iff _ _ _ _ _
  | otherMsg => simp [pollConn]
  | wouldBlock => simp [pollConn]
  | connClosed => simp [pollConn]
  | connReset => simp [pollConn]
  | otherErr => simp [pollConn]

theorem pollAll_none_iff (s1 s2 : Nat → Bool) :
    ∀ l : List MConn, (pollAll s1 l = none ↔ pollAll s2 l = none) := by
  intro l
  induction l with
  | nil => simp [pollAll]
  | cons c rest ih =>
    simp only [pollAll]
    cases h1 : pollConn s1 c with
    | none =>
      have h2 := (pollConn_none_iff s1 s2 c).mp h1
      simp [h2]
    | some lg1 =>
      cases h2 : pollConn s2 c with
      | none =>
        have h3 := (pollConn_none_iff s2 s1 c).mp h2
        rw [h3] at h1
        exact absurd h1 (by simp)
      | some lg2 =>
        cases hr1 : pollAll s1 rest with
        | none =>
          have hr2 := ih.mp hr1
          simp [hr2]
        | some ls1 =>
          cases hr2 : pollAll s2 rest with
          | none =>
            have h4 := ih.mpr hr2
            rw [h4] at hr1
            exact absurd hr1 (by simp)
          | some ls2 => simp

/-- Every log event produced while polling one connection ends up in the
log list of the whole polling loop. -/
theorem pollAll_mem_logs (sk : Nat → Bool) :
    ∀ (l : List MConn) (L : List LogEvent), pollAll sk l = some L →
      ∀ c ∈ l, ∀ lc, pollConn sk c = some lc → ∀ e ∈ lc, e ∈ L := by
  intro l
  induction l with
  | nil => intro L h c hc; simp at hc
  | cons a rest ih =>
    intro L h c hc lc hlc e he
    simp only [pollAll] at h
    cases h1 : pollConn sk a with
    | none =>
      rw [h1] at h
      exact absurd h (by simp)
    | some lg =>
      rw [h1] at h
      cases h2 : pollAll sk rest with
      | none =>
        rw [h2] at h
        exact absurd h (by simp)
      | some ls =>
        rw [h2] at h
        obtain rfl : lg ++ ls = L := Option.some.inj h
        rcases List.mem_cons.mp hc with h3 | h3
        · subst h3
          rw [hlc] at h1
          obtain rfl : lc = lg := Option.some.inj h1
          exact List.mem_append_left _ he
        · exact List.mem_append_right _ (ih ls h2 c h3 lc hlc e he)

/-- The shape of a completed tick, given that polling did not panic. -/
theorem multiplexerTick_some (running : Bool) (handoff : Option MConn) (sinkOk : Nat → Bool)
    (s : MuxState) (pollLogs : List LogEvent)
    (hp : pollAll sinkOk (tickConns s handoff) = some pollLogs) :
    multiplexerTick running handoff sinkOk s = some {
      conns := retireStep (tickConns s handoff)
      idle_ms := if (retireStep (tickConns s handoff)).isEmpty && !running then s.idle_ms
        else nextIdle (tickWorked (tickConns s handoff)) s.idle_ms
      worked := tickWorked (tickConns s handoff)
      slept := if ((retireStep (tickConns s handoff)).isEmpty && !running)
          || tickWorked (tickConns s handoff) then none else some s.idle_ms
      exited := (retireStep (tickConns s handoff)).isEmpty && !running
      logs := pollLogs ++ retireLogs running (tickConns s handoff) } := by
  simp only [multiplexerTick, hp]

/-- Claim C5 counterexample: in a run whose first accept attempt fails
while the Shared Shutdown Flag already reads false, the Acceptor does not
terminate: it continues and hands off the connection accepted on the next
iteration, so the claim that the flag is checked after every accept
attempt is false. -/
theorem acceptor_error_skips_check :
    acceptorRun 1 [(AcceptEvent.acceptErr, false), (AcceptEvent.ok, true)] = [1]
    ∧ ([1] : List Nat) ≠ [] := by
  exact ⟨rfl, by simp⟩

/-- Claim C5 as amended: a failed raw accept and a failed handshake
continue with the next iteration without reading the Shared Shutdown
Flag; the flag is read only after a successful accept, handshake and
handoff, and when it reads false there the Acceptor terminates without
accepting any further connection. -/
theorem acceptor_flag_semantics (id : Nat) (b : Bool) (rest : List (AcceptEvent × Bool)) :
    acceptorRun id ((AcceptEvent.acceptErr, b) :: rest) = acceptorRun id rest
    ∧ acceptorRun id ((AcceptEvent.handshakeErr, b) :: rest) = acceptorRun id rest
    ∧ acceptorRun id ((AcceptEvent.ok, false) :: rest) = [id]
    ∧ acceptorRun id ((AcceptEvent.ok, true) :: rest) = id :: acceptorRun (id + 1) rest := by
  refine ⟨rfl, rfl, ?_, ?_⟩ <;> simp [acceptorRun]

/-- Claim C6: when some connection of a tick reports closed or reset, the
tick removes exactly the single connection at the final closed_index
(even when several connections retire-report in the same tick), before
the next tick begins: the surviving set is a permutation of the polled
set with exactly that one occurrence erased, so the removed connection is
never polled again. -/
theorem mux_tick_retires_one (running : Bool) (handoff : Option MConn) (sinkOk : Nat → Bool)
    (s : MuxState) (out : TickOutput) (i : Nat)
    (h : multiplexerTick running handoff sinkOk s = some out)
    (hi : closedIndexOf (tickConns s handoff) = some i) :
    out.conns.length + 1 = (tickConns s handoff).length
    ∧ out.conns.Perm ((tickConns s handoff).eraseIdx i) := by
  cases hp : pollAll sinkOk (tickConns s handoff) with
  | none =>
    simp only [multiplexerTick, hp] at h
    exact absurd h (by simp)
  | some L =>
    rw [multiplexerTick_some running handoff sinkOk s L hp] at h
    obtain rfl := Option.some.inj h
    have hlt := closedIndexOf_lt _ _ hi
    have hperm : (retireStep (tickConns s handoff)).Perm
        ((tickConns s handoff).eraseIdx i) := by
      simp only [retireStep, hi]
      exact swapRemove_perm _ i hlt
    refine ⟨?_, hperm⟩
    show (retireStep (tickConns s handoff)).length + 1 = (tickConns s handoff).length
    have h1 := hperm.length_eq
    have h2 := List.length_eraseIdx_add_one hlt
    omega

/-- Witness for mux_tick_retires_one: two connections report closed and
reset in the same tick; only the one at index 1 is removed. -/
theorem mux_tick_retires_one_witness :
    ((⟨[⟨1, ReadResult.connReset⟩], 100, false, some 50, false,
        [LogEvent.closedLog 2]⟩ : TickOutput)).conns.length + 1
      = (tickConns ⟨[⟨1, ReadResult.connReset⟩, ⟨2, ReadResult.connClosed⟩], 50⟩ none).length
    ∧ ((⟨[⟨1, ReadResult.connReset⟩], 100, false, some 50, false,
        [LogEvent.closedLog 2]⟩ : TickOutput)).conns.Perm
        ((tickConns ⟨[⟨1, ReadResult.connReset⟩, ⟨2, ReadResult.connClosed⟩], 50⟩
          none).eraseIdx 1) :=
  mux_tick_retires_one true none (fun _ => true)
    ⟨[⟨1, ReadResult.connReset⟩, ⟨2, ReadResult.connClosed⟩], 50⟩
    ⟨[⟨1, ReadResult.connReset⟩], 100, false, some 50, false, [LogEvent.closedLog 2]⟩ 1
    (by decide) (by decide)

/-- Claim C7: the idle backoff starts at the 50 ms floor; after n
consecutive idle ticks the stored duration is min 2000 (50 + n * 50) ms,
and a tick with activity performs no sleep, does not exit, and resets the
stored duration to 50 ms. -/
theorem idle_backoff_spec (n : Nat) (running : Bool) (handoff : Option MConn)
    (sinkOk : Nat → Bool) (s : MuxState) (out : TickOutput)
    (h : multiplexerTick running handoff sinkOk s = some out)
    (hw : out.worked = true) :
    idleAfter n = min 2000 (50 + n * 50)
    ∧ out.slept = none ∧ out.exited = false ∧ out.idle_ms = 50 := by
  have hform : idleAfter n = min 2000 (50 + n * 50) := by
    induction n with
    | zero => rfl
    | succ k ihk =>
      rw [idleAfter, ihk]
      simp only [nextIdle, Bool.not_false, if_true]
      omega
  cases hp : pollAll sinkOk (tickConns s handoff) with
  | none =>
    simp only [multiplexerTick, hp] at h
    exact absurd h (by simp)
  | some L =>
    rw [multiplexerTick_some running handoff sinkOk s L hp] at h
    obtain rfl := Option.some.inj h
    have hw2 : tickWorked (tickConns s handoff) = true := hw
    obtain ⟨c, hc, hact⟩ := List.any_eq_true.mp hw2
    have hmem := mem_retireStep _ c hc (hasActivity_not_retiring _ hact)
    have hne : (retireStep (tickConns s handoff)).isEmpty = false := by
      cases hq : retireStep (tickConns s handoff) with
      | nil =>
        rw [hq] at hmem
        exact absurd hmem (by simp)
      | cons d t => rfl
    refine ⟨hform, ?_, ?_, ?_⟩ <;> simp [hne, hw2, nextIdle]

/-- Witness for idle_backoff_spec at n = 3 on a tick whose single
connection received a protocol message. -/
theorem idle_backoff_spec_witness :
    idleAfter 3 = min 2000 (50 + 3 * 50)
    ∧ ((⟨[⟨1, ReadResult.otherMsg⟩], 50, true, none, false,
        [LogEvent.received 1]⟩ : TickOutput)).slept = none
    ∧ ((⟨[⟨1, ReadResult.otherMsg⟩], 50, true, none, false,
        [LogEvent.received 1]⟩ : TickOutput)).exited = false
    ∧ ((⟨[⟨1, ReadResult.otherMsg⟩], 50, true, none, false,
        [LogEvent.received 1]⟩ : TickOutput)).idle_ms = 50 :=
  idle_backoff_spec 3 true none (fun _ => true) ⟨[⟨1, ReadResult.otherMsg⟩], 50⟩
    ⟨[⟨1, ReadResult.otherMsg⟩], 50, true, none, false, [LogEvent.received 1]⟩
    (by decide) (by decide)

/-- Claim C8: the first Ctrl-C invocation (attempted still false) flips
the Shared Shutdown Flag to false, marks the transition attempted, warns
and opens the loopback connection; every invocation with attempted
already true leaves the state (including the flag) unchanged, never
stores the flag again, and exits the process with the distinguished
non-zero status 19937, regardless of any other state. -/
theorem ctrlc_handler_spec :
    (∀ r : Bool, ctrlcHandler { attempted := false, running := r }
      = ({ attempted := true, running := false },
        [HandlerAction.warnGraceful, HandlerAction.storeRunningFalse,
          HandlerAction.connectLoopback]))
    ∧ (∀ r : Bool, ctrlcHandler { attempted := true, running := r }
      = ({ attempted := true, running := r },
        [HandlerAction.warnForce, HandlerAction.exitProcess 19937]))
    ∧ (∀ r : Bool,
        HandlerAction.storeRunningFalse ∉ (ctrlcHandler { attempted := true, running := r }).2)
    ∧ (19937 : Nat) ≠ 0 := by
  refine ⟨fun r => rfl, fun r => rfl, fun r => by simp [ctrlcHandler], by decide⟩

/-- Claim C9: when the clipboard write fails for a text payload received
from a connection (the payload itself decoding fine), the failure is
logged with that connection id, the connection is not retired (it is
still in the set the next tick polls), and no other connection is
affected: the resulting connection set is identical whatever the sink
outcomes were. -/
theorem sink_failure_contained (running : Bool) (handoff : Option MConn)
    (sinkOk sinkOk2 : Nat → Bool) (s : MuxState) (out : TickOutput)
    (c : MConn) (p content : List Nat)
    (hc : c ∈ tickConns s handoff)
    (hres : c.result = ReadResult.text p)
    (hdec : decode p = some content)
    (hfail : sinkOk c.id = false)
    (h : multiplexerTick running handoff sinkOk s = some out) :
    LogEvent.sinkError c.id ∈ out.logs
    ∧ c ∈ out.conns
    ∧ (multiplexerTick running handoff sinkOk2 s).map TickOutput.conns = some out.conns := by
  cases hp : pollAll sinkOk (tickConns s handoff) with
  | none =>
    simp only [multiplexerTick, hp] at h
    exact absurd h (by simp)
  | some L =>
    rw [multiplexerTick_some running handoff sinkOk s L hp] at h
    obtain rfl := Option.some.inj h
    refine ⟨?_, ?_, ?_⟩
    · have hpc : pollConn sinkOk c = some [LogEvent.sinkError c.id] := by
        simp only [pollConn, hres, set_clipboard_bytes, hdec, hfail]
        rfl
      have hin := pollAll_mem_logs sinkOk _ L hp c hc _ hpc
        (LogEvent.sinkError c.id) (by simp)
      show LogEvent.sinkError c.id ∈ L ++ retireLogs running (tickConns s handoff)
      exact List.mem_append_left _ hin
    · show c ∈ retireStep (tickConns s handoff)
      refine mem_retireStep _ c hc ?_
      rw [hres]
      rfl
    · cases hq : pollAll sinkOk2 (tickConns s handoff) with
      | none =>
        exact absurd ((pollAll_none_iff sinkOk2 sinkOk _).mp hq) (by simp [hp])
      | some L2 =>
        rw [multiplexerTick_some running handoff sinkOk2 s L2 hq]
        rfl

/-- Witness for sink_failure_contained: one connection delivers the text
payload byte 97 while the sink fails and a second connection retires. -/
theorem sink_failure_contained_witness :
    LogEvent.sinkError 1 ∈ ((⟨[⟨1, ReadResult.text [97]⟩], 50, true, none, false,
        [LogEvent.sinkError 1, LogEvent.closedLog 2]⟩ : TickOutput)).logs
    ∧ (⟨1, ReadResult.text [97]⟩ : MConn) ∈ ((⟨[⟨1, ReadResult.text [97]⟩], 50, true, none,
        false, [LogEvent.sinkError 1, LogEvent.closedLog 2]⟩ : TickOutput)).conns
    ∧ (multiplexerTick true none (fun _ => true)
        ⟨[⟨1, ReadResult.text [97]⟩, ⟨2, ReadResult.connClosed⟩], 50⟩).map TickOutput.conns
      = some ((⟨[⟨1, ReadResult.text [97]⟩], 50, true, none, false,
        [LogEvent.sinkError 1, LogEvent.closedLog 2]⟩ : TickOutput)).conns :=
  sink_failure_contained true none (fun _ => false) (fun _ => true)
    ⟨[⟨1, ReadResult.text [97]⟩, ⟨2, ReadResult.connClosed⟩], 50⟩
    ⟨[⟨1, ReadResult.text [97]⟩], 50, true, none, false,
      [LogEvent.sinkError 1, LogEvent.closedLog 2]⟩
    ⟨1, ReadResult.text [97]⟩ [97] [97]
    (by decide) rfl (by decide) rfl (by decide)

end Wsclip
